import Mathlib

/-!
Verification of the three analysis scripts of this repository
(`analyze_loops.py`, `analyze_secondary_structure.py`, `analyze_msa_usage.py`)
against their natural-language specification.  Text lines are modelled as
`List Char`; Python's fixed-column extraction, `int()` / `float()` parsing
(on the signed decimal forms occurring in PDB numeric fields, with exact
rational arithmetic in place of IEEE floats), sets, dicts and sorting are
embedded as executable Lean functions, and the spec's claims are proved
about them.
-/

/-! ### Python string primitives -/

/-- Python `line[i]`: `some` character, or `none` for the `IndexError` raised
when `i` is out of range. -/
def pyAt (l : List Char) (i : Nat) : Option Char := l[i]?

/-- Python `line[a:b]` for `0 ≤ a ≤ b`: slicing never raises, a short line
just yields a short (possibly empty) slice. -/
def pySlice (l : List Char) (a b : Nat) : List Char := (l.take b).drop a

/-- Python `s.strip()`: drop leading and trailing whitespace. -/
def pyStrip (l : List Char) : List Char :=
  ((l.dropWhile Char.isWhitespace).reverse.dropWhile Char.isWhitespace).reverse

/-- Value of a digit string, most significant digit first (no validity check). -/
def digitsToNat (l : List Char) : Nat := l.foldl (fun a c => 10 * a + (c.toNat - 48)) 0

/-- Decimal-digit run: `some` value when `l` is a nonempty all-digit list. -/
def digitsVal (l : List Char) : Option Nat :=
  if l.isEmpty || !l.all Char.isDigit then none else some (digitsToNat l)

/-- Model of Python `int(s)` on the optionally signed decimal strings that
occur in fixed-column PDB numeric fields; every other input is a
`ValueError`, modelled as `none`. -/
def pyInt (l : List Char) : Option Int :=
  match l with
  | '-' :: rest => (digitsVal rest).map (fun n => -(n : Int))
  | '+' :: rest => (digitsVal rest).map (fun n => (n : Int))
  | _ => (digitsVal l).map (fun n => (n : Int))

/-- Unsigned decimal numeral with an optional fractional part, as an exact
rational. -/
def decimalVal (l : List Char) : Option ℚ :=
  let ip := l.takeWhile (fun c => c ≠ '.')
  match l.dropWhile (fun c => c ≠ '.') with
  | [] => (digitsVal ip).map (fun n => (n : ℚ))
  | _ :: frac =>
    if (ip.isEmpty && frac.isEmpty) || !ip.all Char.isDigit || !frac.all Char.isDigit then
      none
    else
      some ((digitsToNat ip : ℚ) + (digitsToNat frac : ℚ) / (10 : ℚ) ^ frac.length)

/-- Model of Python `float(s)` on the optionally signed decimal strings that
occur in PDB coordinate and B-factor fields, with exact rational values in
place of IEEE doubles; every other input is a `ValueError`, modelled as
`none`. -/
def pyFloat (l : List Char) : Option ℚ :=
  match l with
  | '-' :: rest => (decimalVal rest).map (fun q => -q)
  | '+' :: rest => decimalVal rest
  | _ => decimalVal l

/-- Python `s.lower()` (per-character, as for the ASCII identifiers and
header names handled here). -/
def pyLower (l : List Char) : List Char := l.map Char.toLower

/-- Python `line.startswith(pre)`. -/
def pyStartsWith (pre line : List Char) : Bool := pre.isPrefixOf line

/-- Python `needle in hay` on strings: substring containment. -/
def pySubstr (needle : List Char) : List Char → Bool
  | [] => needle.isEmpty
  | c :: t => needle.isPrefixOf (c :: t) || pySubstr needle t

def HELIXkw : List Char := ['H', 'E', 'L', 'I', 'X']
def SHEETkw : List Char := ['S', 'H', 'E', 'E', 'T']
def ATOMkw : List Char := ['A', 'T', 'O', 'M']
def HETATMkw : List Char := ['H', 'E', 'T', 'A', 'T', 'M']

/-! ### Data model: residue keys -/

/-- A Residue Key: (chain identifier, residue sequence number).  The chain
identifier is the stripped one-character string Python extracts, so a
`List Char`. -/
abbrev ResKey := List Char × Int

/-! ### `analyze_loops.parse_pdb_secondary_structure` -/

/-- Field extraction of the `HELIX` branch: chain id at column 19
(`IndexError` on a short line), start residue at columns 21:25 and end
residue at columns 33:37 (`ValueError` on non-numeric content); `none` when
any extraction fails, exactly the lines the `except` clause skips. -/
def helixExtract (line : List Char) : Option (List Char × Int × Int) :=
  match pyAt line 19, pyInt (pyStrip (pySlice line 21 25)),
      pyInt (pyStrip (pySlice line 33 37)) with
  | some c, some r1, some r2 => some (pyStrip [c], r1, r2)
  | _, _, _ => none

/-- Field extraction of the `SHEET` branch: chain id at column 21, start
residue at columns 22:26, end residue at columns 33:37. -/
def sheetExtract (line : List Char) : Option (List Char × Int × Int) :=
  match pyAt line 21, pyInt (pyStrip (pySlice line 22 26)),
      pyInt (pyStrip (pySlice line 33 37)) with
  | some c, some r1, some r2 => some (pyStrip [c], r1, r2)
  | _, _, _ => none

/-- The residues `for resnum in range(resseq1, resseq2 + 1)` adds for one
header record: every `(chain, n)` with `resseq1 ≤ n ≤ resseq2`. -/
def rangeRegions (c : List Char) (r1 r2 : Int) : Finset ResKey :=
  (Finset.Icc r1 r2).image (fun n => (c, n))

/-- Processing of one line of `parse_pdb_secondary_structure`: expand a
well-formed `HELIX`/`SHEET` record into the structured-region set, skip a
line that raises during extraction, ignore every other line. -/
def ssLineUpdate (line : List Char) (acc : Finset ResKey) : Finset ResKey :=
  if pyStartsWith HELIXkw line then
    match helixExtract line with
    | some (c, r1, r2) => acc ∪ rangeRegions c r1 r2
    | none => acc
  else if pyStartsWith SHEETkw line then
    match sheetExtract line with
    | some (c, r1, r2) => acc ∪ rangeRegions c r1 r2
    | none => acc
  else acc

/-- `parse_pdb_secondary_structure`: fold the per-line update over the file's
lines, starting from the empty set. -/
def parse_pdb_secondary_structure (lines : List (List Char)) : Finset ResKey :=
  lines.foldl (fun acc line => ssLineUpdate line acc) ∅

/-! ### `analyze_loops.parse_pdb_atoms` -/

/-- `atoms_by_residue`: insertion-ordered association list from residue key
to the list of `(resname, b_factor)` pairs of its atoms (the shape of the
script's `defaultdict(list)`). -/
abbrev AtomMap := List (ResKey × List (List Char × ℚ))

/-- Field extraction of an `ATOM`/`HETATM` line in `analyze_loops`: chain id
at column 21, residue name at columns 17:20, residue number at columns
22:26, B-factor at columns 60:66; `none` when any extraction raises. -/
def atomExtract (line : List Char) : Option (ResKey × List Char × ℚ) :=
  match pyAt line 21, pyInt (pyStrip (pySlice line 22 26)),
      pyFloat (pyStrip (pySlice line 60 66)) with
  | some c, some rn, some b => some ((pyStrip [c], rn), pyStrip (pySlice line 17 20), b)
  | _, _, _ => none

/-- `atoms_by_residue[key].append(value)` on a `defaultdict(list)`: append to
the existing key's list, or add a new key at the end (insertion order). -/
def appendAtom (k : ResKey) (v : List Char × ℚ) : AtomMap → AtomMap
  | [] => [(k, [v])]
  | (k', vs) :: rest =>
    if k' = k then (k', vs ++ [v]) :: rest else (k', vs) :: appendAtom k v rest

/-- Processing of one line of `analyze_loops.parse_pdb_atoms`: both `ATOM`
and `HETATM` lines qualify; a line that raises during extraction is
skipped. -/
def atomLineUpdate (line : List Char) (acc : AtomMap) : AtomMap :=
  if pyStartsWith ATOMkw line || pyStartsWith HETATMkw line then
    match atomExtract line with
    | some (k, rn, b) => appendAtom k (rn, b) acc
    | none => acc
  else acc

/-- `analyze_loops.parse_pdb_atoms`: fold the per-line update over the
file's lines. -/
def parse_pdb_atoms (lines : List (List Char)) : AtomMap :=
  lines.foldl (fun acc line => atomLineUpdate line acc) []

/-! ### Ordering of residue keys (Python tuple comparison) -/

/-- Python string comparison `a < b` (lexicographic on code points). -/
def chainLtB : List Char → List Char → Bool
  | [], [] => false
  | [], _ :: _ => true
  | _ :: _, [] => false
  | a :: as, b :: bs => if a < b then true else if a = b then chainLtB as bs else false

/-- Python tuple comparison `(chain1, n1) < (chain2, n2)`. -/
def keyLtB (x y : ResKey) : Bool :=
  if chainLtB x.1 y.1 then true
  else if x.1 = y.1 then decide (x.2 < y.2)
  else false

def keyLt (x y : ResKey) : Prop := keyLtB x y = true

def keyLe (x y : ResKey) : Prop := keyLt x y ∨ x = y

instance : DecidableRel keyLt := fun x y => decidable_of_iff (keyLtB x y = true) Iff.rfl

instance : DecidableRel keyLe := fun x y => decidable_of_iff (keyLt x y ∨ x = y) Iff.rfl

/-! ### `analyze_loops.identify_loops` -/

/-- The contiguity test of the grouping loop: same chain and the residue
number grows by exactly one (`prev_chain == curr_chain and curr_resnum ==
prev_resnum + 1`). -/
def adjacentB (x y : ResKey) : Bool := decide (x.1 = y.1 ∧ y.2 = x.2 + 1)

/-- The grouping loop of `identify_loops` with its running state: `prev` is
the residue handled last, `current` the current loop accumulated in reverse;
an adjacent residue extends `current`, any other residue flushes it and
starts a new loop, and the final `current` is flushed at the end. -/
def groupRunsAux (prev : ResKey) (current : List ResKey) : List ResKey → List (List ResKey)
  | [] => [current.reverse]
  | r :: rest =>
    if adjacentB prev r then groupRunsAux r (r :: current) rest
    else current.reverse :: groupRunsAux r [r] rest

/-- Grouping of the sorted loop residues into contiguous runs; the empty
list yields no loops (`if not loop_residues: return []`). -/
def groupRuns : List ResKey → List (List ResKey)
  | [] => []
  | r :: rest => groupRunsAux r [r] rest

/-- `identify_loops`: sort the distinct residue keys carrying atom data
(`sorted(set(atoms_by_residue.keys()))`), keep those outside the structured
regions, and group the survivors into contiguous runs. -/
def identify_loops (structured_regions : Finset ResKey) (atoms_by_residue : AtomMap) :
    List (List ResKey) :=
  let all_residues := List.insertionSort keyLe (atoms_by_residue.map Prod.fst).dedup
  let loop_residues := all_residues.filter (fun r => decide (r ∉ structured_regions))
  groupRuns loop_residues

/-! ### `analyze_loops.analyze_loops` (per-loop B-factor aggregation) -/

/-- Python dict lookup on the association list (keys are unique, so first
match is the dict entry). -/
def lookupA (k : ResKey) : AtomMap → Option (List (List Char × ℚ))
  | [] => none
  | (k', vs) :: rest => if k' = k then some vs else lookupA k rest

/-- The `b_factors` list collected for one loop: for each residue key of the
loop that has atom data, every B-factor of its atoms, in order. -/
def loop_bfactors (atoms_by_residue : AtomMap) (loop : List ResKey) : List ℚ :=
  loop.flatMap (fun k =>
    match lookupA k atoms_by_residue with
    | some vs => vs.map Prod.snd
    | none => [])

/-- The reported average: `sum(b_factors) / len(b_factors)` when any atom was
found, the `N/A` branch (`none`) otherwise. -/
def avg_bfactor (bs : List ℚ) : Option ℚ :=
  if bs.isEmpty then none else some (bs.sum / (bs.length : ℚ))

/-- The per-loop averages `analyze_loops` reports, in loop order. -/
def loop_avgs (structured_regions : Finset ResKey) (atoms_by_residue : AtomMap) :
    List (Option ℚ) :=
  (identify_loops structured_regions atoms_by_residue).map
    (fun loop => avg_bfactor (loop_bfactors atoms_by_residue loop))

/-! ### `analyze_secondary_structure.calculate_distance` -/

/-- `calculate_distance`: the Euclidean distance between two 3D points
(coordinates as reals, `math.sqrt` as `Real.sqrt`). -/
noncomputable def calculate_distance (c1 c2 : ℝ × ℝ × ℝ) : ℝ :=
  Real.sqrt ((c2.1 - c1.1) ^ 2 + (c2.2.1 - c1.2.1) ^ 2 + (c2.2.2 - c1.2.2) ^ 2)

/-! ### `analyze_secondary_structure.parse_pdb_atoms` (alpha-carbon map) -/

/-- Python dict assignment `d[k] = v`: replace the value of an existing key
in place, or append a new key at the end. -/
def dictSet (k : ResKey) (v : ℚ × ℚ × ℚ) :
    List (ResKey × (ℚ × ℚ × ℚ)) → List (ResKey × (ℚ × ℚ × ℚ))
  | [] => [(k, v)]
  | (k', v') :: rest => if k' = k then (k, v) :: rest else (k', v') :: dictSet k v rest

/-- Processing of one line of `analyze_secondary_structure.parse_pdb_atoms`:
only a line whose prefix is `ATOM` qualifies; its atom-name field (columns
12:16, stripped) must equal `CA`; chain id at column 21, residue number at
columns 22:26, coordinates at columns 30:38 / 38:46 / 46:54; a line that
raises during extraction is skipped. -/
def caLineUpdate (line : List Char) (acc : List (ResKey × (ℚ × ℚ × ℚ))) :
    List (ResKey × (ℚ × ℚ × ℚ)) :=
  if pyStartsWith ATOMkw line then
    if pyStrip (pySlice line 12 16) = ['C', 'A'] then
      match pyAt line 21, pyInt (pyStrip (pySlice line 22 26)),
          pyFloat (pyStrip (pySlice line 30 38)), pyFloat (pyStrip (pySlice line 38 46)),
          pyFloat (pyStrip (pySlice line 46 54)) with
      | some c, some rn, some x, some y, some z => dictSet (pyStrip [c], rn) (x, y, z) acc
      | _, _, _, _, _ => acc
    else acc
  else acc

/-- The alpha-carbon coordinate map of `analyze_secondary_structure`. -/
def parse_ca_atoms (lines : List (List Char)) : List (ResKey × (ℚ × ℚ × ℚ)) :=
  lines.foldl (fun acc line => caLineUpdate line acc) []

/-! ### `analyze_msa_usage.parse_entry_table` (column resolution) -/

def kwGroup : List Char := ['g', 'r', 'o', 'u', 'p']

def idKeywords : List (List Char) :=
  [['i', 'd'], ['n', 'a', 'm', 'e'], ['s', 'e', 'q', 'u', 'e', 'n', 'c', 'e'],
   ['e', 'n', 't', 'r', 'y'], ['a', 'c', 'c', 'e', 's', 's', 'i', 'o', 'n']]

def fallbackKeywords : List (List Char) :=
  [['g', 'e', 'n', 'u', 's'], ['s', 'p', 'e', 'c', 'i', 'e', 's'],
   ['t', 'a', 'x', 'o', 'n'], ['c', 'l', 'a', 's', 's']]

/-- Does a header field name contain `group`, case-insensitively? -/
def grpPredB (f : List Char) : Bool := pySubstr kwGroup (pyLower f)

/-- Does a header field name contain any identifier keyword? -/
def idPredB (f : List Char) : Bool := idKeywords.any (fun kw => pySubstr kw (pyLower f))

/-- Does a header field name contain any fallback group keyword? -/
def fbPredB (f : List Char) : Bool := fallbackKeywords.any (fun kw => pySubstr kw (pyLower f))

/-- The first scanning loop's `group_col`: the loop overwrites on every
match, so it ends holding the last field containing `group`. -/
def groupColScan (fields : List (List Char)) : Option (List Char) :=
  fields.foldl (fun acc f => if grpPredB f then some f else acc) none

/-- The first scanning loop's `id_col`: likewise the last field containing
any identifier keyword. -/
def idColScan (fields : List (List Char)) : Option (List Char) :=
  fields.foldl (fun acc f => if idPredB f then some f else acc) none

/-- The fallback loop (it breaks on the first hit): the first field
containing any of the fallback keywords. -/
def groupColFallback (fields : List (List Char)) : Option (List Char) :=
  fields.find? fbPredB

/-- Column resolution of `parse_entry_table`: the `group` scan, then the
fallback scan, then the fatal `ValueError` when both fail; the identifier
column defaults to the first header field. -/
def resolve_table_columns (fields : List (List Char)) :
    Except Unit (List Char × List Char) :=
  match groupColScan fields with
  | some g => Except.ok (g, (idColScan fields).getD fields.headI)
  | none =>
    match groupColFallback fields with
    | some g => Except.ok (g, (idColScan fields).getD fields.headI)
    | none => Except.error ()

/-- Modelled from the spec claim's words, for comparison with the code: a
fallback that honours the keyword priority order `genus`, `species`,
`taxon`, `class` — for each keyword in that order, the first field
containing it. -/
def groupColFallbackPriority (fields : List (List Char)) : Option (List Char) :=
  fallbackKeywords.findSome? (fun kw => fields.find? (fun f => pySubstr kw (pyLower f)))

/-- Modelled from the spec claim's words, for comparison with the code: an
identifier column that takes the first field containing any identifier
keyword. -/
def idColFirstMatch (fields : List (List Char)) : Option (List Char) :=
  fields.find? idPredB

/-! ### `analyze_msa_usage.normalize_sequence_id` -/

/-- `normalize_sequence_id`: exact match, then the part before the first dot
(`seq_id.split('.')[0]`), then substring containment in either direction
against the table identifiers in insertion order, then case-insensitive
equality; `none` when everything fails. -/
def normalize_sequence_id (seq_id : List Char) (table : List (List Char)) :
    Option (List Char) :=
  if seq_id ∈ table then some seq_id
  else if '.' ∈ seq_id ∧ seq_id.takeWhile (fun c => c ≠ '.') ∈ table then
    some (seq_id.takeWhile (fun c => c ≠ '.'))
  else
    match table.find? (fun tid => pySubstr tid seq_id || pySubstr seq_id tid) with
    | some tid => some tid
    | none => table.find? (fun tid => decide (pyLower tid = pyLower seq_id))

/-! ### `analyze_msa_usage.analyze_amino_acid_usage` (position-wise counter) -/

/-- Normalisation of one alignment character: uppercase it, and send the gap
symbols `-` and `.` to the sentinel category `gap`. -/
def normSym (c : Char) : List Char :=
  let u := c.toUpper
  if u = '-' || u = '.' then ['g', 'a', 'p'] else [u]

/-- `aa_at_position` for one group: the normalised character of every
sequence long enough to have one at this column (`if pos < len(sequence)`);
a shorter sequence contributes nothing. -/
def colSymbols (seqs : List (List Char)) (pos : Nat) : List (List Char) :=
  seqs.filterMap (fun s => (s[pos]?).map normSym)

/-- Ordering key of the output rows: `key=lambda x: (-x[1], x[0])`, i.e.
count descending, then symbol ascending. -/
def usageLe (a b : List Char × Nat) : Prop :=
  b.2 < a.2 ∨ (a.2 = b.2 ∧ (chainLtB a.1 b.1 = true ∨ a.1 = b.1))

instance : DecidableRel usageLe := fun a b =>
  decidable_of_iff (b.2 < a.2 ∨ (a.2 = b.2 ∧ (chainLtB a.1 b.1 = true ∨ a.1 = b.1))) Iff.rfl

/-- `Counter(aa_at_position).items()` in first-encounter order: each distinct
symbol with its number of occurrences. -/
def usageItems (seqs : List (List Char)) (pos : Nat) : List (List Char × Nat) :=
  let col := colSymbols seqs pos
  col.dedup.map (fun s => (s, col.count s))

/-- The printed rows for one group and column: the tallied symbols sorted by
descending count (ties by ascending symbol), each with its count and its
percentage `count / total * 100` over the `total` collected characters. -/
def usageRows (seqs : List (List Char)) (pos : Nat) : List (List Char × Nat × ℚ) :=
  let total := (colSymbols seqs pos).length
  (List.insertionSort usageLe (usageItems seqs pos)).map
    (fun it => (it.1, it.2, (it.2 : ℚ) / (total : ℚ) * 100))

/-- Does sequence `s` contribute symbol `sym` at column `pos`?  (It must be
long enough, and its normalised character must be `sym`.) -/
def hasSymAtB (pos : Nat) (sym : List Char) (s : List Char) : Bool :=
  match s[pos]? with
  | some c => decide (normSym c = sym)
  | none => false

instance {ε α : Type} [DecidableEq ε] [DecidableEq α] : DecidableEq (Except ε α)
  | .ok x, .ok y =>
    if h : x = y then .isTrue (by rw [h]) else .isFalse (fun hh => h (Except.ok.inj hh))
  | .ok _, .error _ => .isFalse (fun hh => Except.noConfusion hh)
  | .error _, .ok _ => .isFalse (fun hh => Except.noConfusion hh)
  | .error x, .error y =>
    if h : x = y then .isTrue (by rw [h]) else .isFalse (fun hh => h (Except.error.inj hh))

/-! ### Concrete inputs used by the spec's worked examples -/

/-- A well-formed 37-column `HELIX` header line: chain `A` at column 19,
start residue `5` at columns 21:25, end residue `8` at columns 33:37. -/
def helixLine0 : List Char :=
  ("HELIX" ++ "              " ++ "A" ++ " " ++ "   5" ++ "        " ++ "   8").toList

/-- A well-formed 66-column `HETATM` line whose atom-name field (columns
12:16) is `CA`: residue `HOH`, chain `A`, residue number 1, coordinates
(1, 2, 3), B-factor 10. -/
def hetLine0 : List Char :=
  ("HETATM" ++ "      " ++ " CA " ++ " " ++ "HOH" ++ " " ++ "A" ++ "   1" ++ "    " ++
    "       1" ++ "       2" ++ "       3" ++ "      " ++ "    10").toList

def gly : List Char := ['G', 'L', 'Y']

/-- Atom data of the worked loop example: chain `A`, residues 1–5, one atom
each, B-factors 10, 20, 30, 40, 50. -/
def exAtoms : AtomMap :=
  [((['A'], 1), [(gly, 10)]), ((['A'], 2), [(gly, 20)]), ((['A'], 3), [(gly, 30)]),
   ((['A'], 4), [(gly, 40)]), ((['A'], 5), [(gly, 50)])]

/-- Structured Region Set of the worked loop example. -/
def exStructured : Finset ResKey := {(['A'], 3)}

/-! ## Helper lemmas: the lexicographic key order -/

theorem chainLtB_cons_iff (x y : Char) (xs ys : List Char) :
    chainLtB (x :: xs) (y :: ys) = true ↔ x < y ∨ (x = y ∧ chainLtB xs ys = true) := by
  simp only [chainLtB]
  split_ifs with h1 h2
  · simp [h1]
  · simp [h1, h2]
  · simp [h1, h2]

theorem chainLtB_irrefl (l : List Char) : chainLtB l l = false := by
  induction l with
  | nil => rfl
  | cons a as ih => simp [chainLtB, lt_irrefl, ih]

theorem chainLtB_trans (a : List Char) : ∀ b c, chainLtB a b = true → chainLtB b c = true →
    chainLtB a c = true := by
  induction a with
  | nil =>
    intro b c h1 h2
    cases b with
    | nil => exact h2
    | cons y ys => cases c with
      | nil => simp [chainLtB] at h2
      | cons z zs => rfl
  | cons x xs ih =>
    intro b c h1 h2
    cases b with
    | nil => simp [chainLtB] at h1
    | cons y ys =>
      cases c with
      | nil => simp [chainLtB] at h2
      | cons z zs =>
        rcases (chainLtB_cons_iff x y xs ys).mp h1 with hxy | ⟨hxy, hxy2⟩ <;>
          rcases (chainLtB_cons_iff y z ys zs).mp h2 with hyz | ⟨hyz, hyz2⟩
        · exact (chainLtB_cons_iff x z xs zs).mpr (Or.inl (lt_trans hxy hyz))
        · exact (chainLtB_cons_iff x z xs zs).mpr (Or.inl (lt_of_lt_of_eq hxy hyz))
        · exact (chainLtB_cons_iff x z xs zs).mpr (Or.inl (lt_of_eq_of_lt hxy hyz))
        · exact (chainLtB_cons_iff x z xs zs).mpr (Or.inr ⟨hxy.trans hyz, ih ys zs hxy2 hyz2⟩)

theorem chainLtB_tricho (a : List Char) : ∀ b, chainLtB a b = true ∨ a = b ∨
    chainLtB b a = true := by
  induction a with
  | nil => intro b; cases b <;> simp [chainLtB]
  | cons x xs ih =>
    intro b
    cases b with
    | nil => simp [chainLtB]
    | cons y ys =>
      rcases lt_trichotomy x y with h | rfl | h
      · exact Or.inl ((chainLtB_cons_iff x y xs ys).mpr (Or.inl h))
      · rcases ih ys with h2 | rfl | h2
        · exact Or.inl ((chainLtB_cons_iff x x xs ys).mpr (Or.inr ⟨rfl, h2⟩))
        · exact Or.inr (Or.inl rfl)
        · exact Or.inr (Or.inr ((chainLtB_cons_iff x x ys xs).mpr (Or.inr ⟨rfl, h2⟩)))
      · exact Or.inr (Or.inr ((chainLtB_cons_iff y x ys xs).mpr (Or.inl h)))

theorem keyLtB_iff (x y : ResKey) : keyLtB x y = true ↔
    chainLtB x.1 y.1 = true ∨ (x.1 = y.1 ∧ x.2 < y.2) := by
  unfold keyLtB
  split_ifs with h1 h2
  · simp [h1]
  · simp [h1, h2, chainLtB_irrefl]
  · simp [h1, h2]

theorem keyLt_irrefl (x : ResKey) : ¬ keyLt x x := by
  intro h
  rcases (keyLtB_iff x x).mp h with h | ⟨_, h⟩
  · rw [chainLtB_irrefl] at h; exact Bool.false_ne_true h
  · exact lt_irrefl _ h

theorem keyLt_trans {x y z : ResKey} (h1 : keyLt x y) (h2 : keyLt y z) : keyLt x z := by
  rcases (keyLtB_iff x y).mp h1 with ha | ⟨ha, ha2⟩ <;>
    rcases (keyLtB_iff y z).mp h2 with hb | ⟨hb, hb2⟩
  · exact (keyLtB_iff x z).mpr (Or.inl (chainLtB_trans _ _ _ ha hb))
  · exact (keyLtB_iff x z).mpr (Or.inl (hb ▸ ha))
  · exact (keyLtB_iff x z).mpr (Or.inl (ha ▸ hb))
  · exact (keyLtB_iff x z).mpr (Or.inr ⟨ha.trans hb, ha2.trans hb2⟩)

theorem keyLt_tricho (x y : ResKey) : keyLt x y ∨ x = y ∨ keyLt y x := by
  rcases chainLtB_tricho x.1 y.1 with h | h | h
  · exact Or.inl ((keyLtB_iff x y).mpr (Or.inl h))
  · rcases lt_trichotomy x.2 y.2 with h2 | h2 | h2
    · exact Or.inl ((keyLtB_iff x y).mpr (Or.inr ⟨h, h2⟩))
    · exact Or.inr (Or.inl (Prod.ext h h2))
    · exact Or.inr (Or.inr ((keyLtB_iff y x).mpr (Or.inr ⟨h.symm, h2⟩)))
  · exact Or.inr (Or.inr ((keyLtB_iff y x).mpr (Or.inl h)))

instance : IsTotal ResKey keyLe :=
  ⟨fun x y => by
    rcases keyLt_tricho x y with h | h | h
    exacts [Or.inl (Or.inl h), Or.inl (Or.inr h), Or.inr (Or.inl h)]⟩

instance : IsTrans ResKey keyLe :=
  ⟨fun x y z h1 h2 => by
    rcases h1 with h1 | rfl
    · rcases h2 with h2 | rfl
      · exact Or.inl (keyLt_trans h1 h2)
      · exact Or.inl h1
    · exact h2⟩

theorem keyLt_of_le_of_ne {x y : ResKey} (h : keyLe x y) (hne : x ≠ y) : keyLt x y := by
  rcases h with h | rfl
  · exact h
  · exact absurd rfl hne

/-! ## Helper lemmas: the grouping loop of `identify_loops` -/

theorem groupRunsAux_flatten (rest : List ResKey) : ∀ prev current,
    (groupRunsAux prev current rest).flatten = current.reverse ++ rest := by
  induction rest with
  | nil => intro prev current; simp [groupRunsAux]
  | cons r rest ih =>
    intro prev current
    simp only [groupRunsAux]
    split
    · rw [ih]; simp
    · simp [ih]

theorem groupRunsAux_ne_nil (rest : List ResKey) : ∀ prev current, current ≠ [] →
    ∀ run ∈ groupRunsAux prev current rest, run ≠ [] := by
  induction rest with
  | nil =>
    intro prev current hc run hr
    simp only [groupRunsAux, List.mem_singleton] at hr
    subst hr
    simpa [List.reverse_eq_nil_iff] using hc
  | cons r rest ih =>
    intro prev current hc run hr
    simp only [groupRunsAux] at hr
    split at hr
    · exact ih r (r :: current) (by simp) run hr
    · rcases List.mem_cons.mp hr with h | h
      · subst h; simpa [List.reverse_eq_nil_iff] using hc
      · exact ih r [r] (by simp) run h

theorem groupRunsAux_headStructure (rest : List ResKey) : ∀ prev current,
    ∃ s runs, groupRunsAux prev current rest = (current.reverse ++ s) :: runs := by
  induction rest with
  | nil => intro prev current; exact ⟨[], [], by simp [groupRunsAux]⟩
  | cons r rest ih =>
    intro prev current
    simp only [groupRunsAux]
    split
    · obtain ⟨s, runs, h⟩ := ih r (r :: current)
      exact ⟨r :: s, runs, by rw [h]; simp⟩
    · exact ⟨[], groupRunsAux r [r] rest, by simp⟩

theorem groupRunsAux_chain (rest : List ResKey) : ∀ prev current,
    current.head? = some prev →
    List.Chain' (fun x y : ResKey => adjacentB y x = true) current →
    ∀ run ∈ groupRunsAux prev current rest,
      List.Chain' (fun x y : ResKey => adjacentB x y = true) run := by
  induction rest with
  | nil =>
    intro prev current _ hc run hr
    simp only [groupRunsAux, List.mem_singleton] at hr
    subst hr
    exact List.chain'_reverse.mpr hc
  | cons r rest ih =>
    intro prev current hh hc run hr
    simp only [groupRunsAux] at hr
    split at hr
    · refine ih r (r :: current) rfl (List.chain'_cons'.mpr ⟨?_, hc⟩) run hr
      intro y hy
      rw [hh, Option.mem_def, Option.some_inj] at hy
      subst hy
      assumption
    · rcases List.mem_cons.mp hr with h | h
      · subst h; exact List.chain'_reverse.mpr hc
      · exact ih r [r] rfl (List.chain'_singleton r) run h

theorem groupRunsAux_boundaries (rest : List ResKey) : ∀ prev current,
    current.head? = some prev →
    List.Chain'
      (fun r₁ r₂ : List ResKey => ∀ x ∈ r₁.getLast?, ∀ y ∈ r₂.head?, adjacentB x y = false)
      (groupRunsAux prev current rest) := by
  induction rest with
  | nil => intro prev current _; exact List.chain'_singleton _
  | cons r rest ih =>
    intro prev current hh
    simp only [groupRunsAux]
    split
    · exact ih r (r :: current) rfl
    · refine List.chain'_cons'.mpr ⟨?_, ih r [r] rfl⟩
      intro run2 hrun2 x hx y hy
      obtain ⟨s, runs, hG⟩ := groupRunsAux_headStructure rest r [r]
      rw [hG] at hrun2
      simp only [List.head?_cons, Option.mem_def, Option.some_inj] at hrun2
      subst hrun2
      rw [List.getLast?_reverse, hh, Option.mem_def, Option.some_inj] at hx
      subst hx
      simp only [List.reverse_singleton, List.singleton_append, List.head?_cons,
        Option.mem_def, Option.some_inj] at hy
      subst hy
      rename_i hnadj
      exact Bool.eq_false_iff.mpr hnadj

theorem groupRuns_flatten (l : List ResKey) : (groupRuns l).flatten = l := by
  cases l with
  | nil => rfl
  | cons r rest => simpa using groupRunsAux_flatten rest r [r]

theorem groupRuns_eq_nil_iff (l : List ResKey) : groupRuns l = [] ↔ l = [] := by
  cases l with
  | nil => simp [groupRuns]
  | cons r rest =>
    simp only [groupRuns]
    obtain ⟨s, runs, h⟩ := groupRunsAux_headStructure rest r [r]
    rw [h]
    simp

theorem groupRuns_runs_ne_nil (l : List ResKey) : ∀ run ∈ groupRuns l, run ≠ [] := by
  cases l with
  | nil => intro run hr; simp [groupRuns] at hr
  | cons r rest => exact groupRunsAux_ne_nil rest r [r] (by simp)

theorem groupRuns_chain (l : List ResKey) : ∀ run ∈ groupRuns l,
    List.Chain' (fun x y : ResKey => adjacentB x y = true) run := by
  cases l with
  | nil => intro run hr; simp [groupRuns] at hr
  | cons r rest => exact groupRunsAux_chain rest r [r] rfl (List.chain'_singleton r)

theorem groupRuns_boundaries (l : List ResKey) :
    List.Chain'
      (fun r₁ r₂ : List ResKey => ∀ x ∈ r₁.getLast?, ∀ y ∈ r₂.head?, adjacentB x y = false)
      (groupRuns l) := by
  cases l with
  | nil => exact List.chain'_nil
  | cons r rest => exact groupRunsAux_boundaries rest r [r] rfl

/-! ## C1 -/

/-- C1: `identify_loops` returns exactly the residue keys with atom data
that are absent from the structured-region set: its loops flatten to the
strictly (chain id, residue number)-sorted list of precisely those keys;
every loop is nonempty and chains same-chain keys whose residue numbers
grow by exactly one; consecutive loops never join into a longer run (the
runs are maximal); and the result is empty exactly when no residue key with
atom data lies outside the structured regions (in particular for empty atom
data), never an error. -/
theorem identify_loops_spec (S : Finset ResKey) (A : AtomMap) :
    (∀ k : ResKey, k ∈ (identify_loops S A).flatten ↔ k ∈ A.map Prod.fst ∧ k ∉ S)
    ∧ List.Pairwise keyLt (identify_loops S A).flatten
    ∧ (∀ run ∈ identify_loops S A, run ≠ [] ∧
        List.Chain' (fun x y : ResKey => adjacentB x y = true) run)
    ∧ List.Chain'
        (fun r₁ r₂ : List ResKey => ∀ x ∈ r₁.getLast?, ∀ y ∈ r₂.head?, adjacentB x y = false)
        (identify_loops S A)
    ∧ (identify_loops S A = [] ↔ ∀ k ∈ A.map Prod.fst, k ∈ S) := by
  have hperm : (List.insertionSort keyLe (A.map Prod.fst).dedup).Perm (A.map Prod.fst).dedup :=
    List.perm_insertionSort keyLe (A.map Prod.fst).dedup
  have hmemsort : ∀ k : ResKey,
      k ∈ List.insertionSort keyLe (A.map Prod.fst).dedup ↔ k ∈ A.map Prod.fst := by
    intro k
    rw [hperm.mem_iff, List.mem_dedup]
  have hil : identify_loops S A =
      groupRuns ((List.insertionSort keyLe (A.map Prod.fst).dedup).filter
        (fun r => decide (r ∉ S))) := rfl
  have hflat : (identify_loops S A).flatten =
      (List.insertionSort keyLe (A.map Prod.fst).dedup).filter (fun r => decide (r ∉ S)) := by
    rw [hil, groupRuns_flatten]
  refine ⟨?_, ?_, ?_, ?_, ?_⟩
  · intro k
    rw [hflat, List.mem_filter, hmemsort, decide_eq_true_iff]
  · rw [hflat]
    have hp1 : List.Pairwise keyLe
        ((List.insertionSort keyLe (A.map Prod.fst).dedup).filter (fun r => decide (r ∉ S))) :=
      (List.sorted_insertionSort keyLe (A.map Prod.fst).dedup).filter _
    have hp2 : List.Pairwise (fun x y : ResKey => x ≠ y)
        ((List.insertionSort keyLe (A.map Prod.fst).dedup).filter (fun r => decide (r ∉ S))) :=
      (hperm.nodup_iff.mpr (List.nodup_dedup _)).filter _
    exact (hp1.and hp2).imp (fun h => keyLt_of_le_of_ne h.1 h.2)
  · intro run hr
    rw [hil] at hr
    exact ⟨groupRuns_runs_ne_nil _ run hr, groupRuns_chain _ run hr⟩
  · rw [hil]
    exact groupRuns_boundaries _
  · rw [hil, groupRuns_eq_nil_iff, List.filter_eq_nil_iff]
    constructor
    · intro h k hk
      have := h k ((hmemsort k).mpr hk)
      simpa using this
    · intro h k hk
      simpa using h k ((hmemsort k).mp hk)

/-! ## C2 -/

theorem sheet_not_helix {line : List Char} (h : pyStartsWith SHEETkw line = true) :
    pyStartsWith HELIXkw line = false := by
  cases line with
  | nil => simp [pyStartsWith, SHEETkw, List.isPrefixOf] at h
  | cons c t =>
    have hc : c = 'S' := by
      simp only [pyStartsWith, SHEETkw, List.isPrefixOf, Bool.and_eq_true, beq_iff_eq] at h
      exact h.1.symm
    subst hc
    rfl

/-- C2: a `HELIX` or `SHEET` header line whose field extraction yields chain
`ch` and residue range `r1`, `r2` adds to the structured-region set exactly
the pairs `(ch, n)` for `r1 ≤ n ≤ r2`; from the empty set this yields
exactly `(r2 - r1 + 1)` entries when `r1 ≤ r2` and zero entries when
`r2 < r1` (a reversed range expands to nothing, without error). -/
theorem structured_expand_spec (line : List Char) (acc : Finset ResKey) (ch : List Char)
    (r1 r2 : Int)
    (hx : (pyStartsWith HELIXkw line = true ∧ helixExtract line = some (ch, r1, r2)) ∨
          (pyStartsWith SHEETkw line = true ∧ sheetExtract line = some (ch, r1, r2))) :
    ssLineUpdate line acc = acc ∪ rangeRegions ch r1 r2
    ∧ (∀ k : ResKey, k ∈ ssLineUpdate line (∅ : Finset ResKey) ↔
        ∃ n : Int, r1 ≤ n ∧ n ≤ r2 ∧ k = (ch, n))
    ∧ (r1 ≤ r2 → (ssLineUpdate line (∅ : Finset ResKey)).card = (r2 - r1 + 1).toNat)
    ∧ (r2 < r1 → (ssLineUpdate line (∅ : Finset ResKey)).card = 0) := by
  have heq : ∀ a : Finset ResKey, ssLineUpdate line a = a ∪ rangeRegions ch r1 r2 := by
    intro a
    rcases hx with ⟨h1, h2⟩ | ⟨h1, h2⟩
    · simp [ssLineUpdate, h1, h2]
    · simp [ssLineUpdate, sheet_not_helix h1, h1, h2]
  have hinj : Function.Injective (fun n : Int => ((ch, n) : ResKey)) :=
    fun a b hab => congrArg Prod.snd hab
  refine ⟨heq acc, ?_, ?_, ?_⟩
  · intro k
    rw [heq, Finset.empty_union]
    simp only [rangeRegions, Finset.mem_image, Finset.mem_Icc]
    constructor
    · rintro ⟨n, ⟨hn1, hn2⟩, rfl⟩
      exact ⟨n, hn1, hn2, rfl⟩
    · rintro ⟨n, hn1, hn2, rfl⟩
      exact ⟨n, ⟨hn1, hn2⟩, rfl⟩
  · intro h
    rw [heq, Finset.empty_union, rangeRegions, Finset.card_image_of_injective _ hinj,
      Int.card_Icc]
    omega
  · intro h
    rw [heq, Finset.empty_union, rangeRegions, Finset.Icc_eq_empty (by omega)]
    simp

/-- Witness for C2 at the concrete well-formed `HELIX` line `helixLine0`
(chain `A`, residues 5 through 8). -/
theorem structured_expand_witness :
    ssLineUpdate helixLine0 ∅ = ∅ ∪ rangeRegions ['A'] 5 8
    ∧ (∀ k : ResKey, k ∈ ssLineUpdate helixLine0 (∅ : Finset ResKey) ↔
        ∃ n : Int, 5 ≤ n ∧ n ≤ 8 ∧ k = (['A'], n))
    ∧ ((5 : Int) ≤ 8 → (ssLineUpdate helixLine0 (∅ : Finset ResKey)).card =
        ((8 : Int) - 5 + 1).toNat)
    ∧ ((8 : Int) < 5 → (ssLineUpdate helixLine0 (∅ : Finset ResKey)).card = 0) :=
  structured_expand_spec helixLine0 ∅ ['A'] 5 8 (Or.inl ⟨by decide, by decide⟩)

/-! ## C3 -/

/-- C3: the reported average B-factor of a loop is the arithmetic mean of
the B-factors of all atom records belonging to the loop's residue keys (it
satisfies `mean * count = sum`); and on chain `A`, residues 1–5 with
B-factors 10, 20, 30, 40, 50 and structured region `{(A, 3)}`, the loops
are `[[(A,1),(A,2)], [(A,4),(A,5)]]` with per-loop averages 15 and 45. -/
theorem loop_avg_spec :
    (∀ (A : AtomMap) (loop : List ResKey), loop_bfactors A loop ≠ [] →
      ∃ m : ℚ, avg_bfactor (loop_bfactors A loop) = some m ∧
        m * ((loop_bfactors A loop).length : ℚ) = (loop_bfactors A loop).sum)
    ∧ identify_loops exStructured exAtoms =
        [[(['A'], 1), (['A'], 2)], [(['A'], 4), (['A'], 5)]]
    ∧ loop_avgs exStructured exAtoms = [some 15, some 45] := by
  have h1 : identify_loops exStructured exAtoms =
      [[(['A'], 1), (['A'], 2)], [(['A'], 4), (['A'], 5)]] := by decide
  refine ⟨?_, h1, ?_⟩
  · intro A loop h
    have hlen : ((loop_bfactors A loop).length : ℚ) ≠ 0 := by
      simpa using h
    refine ⟨(loop_bfactors A loop).sum / ((loop_bfactors A loop).length : ℚ), ?_, ?_⟩
    · simp [avg_bfactor, h]
    · exact div_mul_cancel₀ _ hlen
  · have h2 : loop_bfactors exAtoms [(['A'], 1), (['A'], 2)] = [10, 20] := by decide
    have h3 : loop_bfactors exAtoms [(['A'], 4), (['A'], 5)] = [40, 50] := by decide
    unfold loop_avgs
    rw [h1]
    simp [h2, h3, avg_bfactor]
    norm_num

/-! ## C9 -/

/-- C9: `calculate_distance` is a total (pure) function whose value is the
non-negative Euclidean distance — it is `≥ 0` and its square is
`(x2-x1)² + (y2-y1)² + (z2-z1)²` — and on the coordinates `(0,0,0)` and
`(3,4,0)` it is exactly 5. -/
theorem calculate_distance_spec :
    (∀ c1 c2 : ℝ × ℝ × ℝ, 0 ≤ calculate_distance c1 c2)
    ∧ (∀ c1 c2 : ℝ × ℝ × ℝ, calculate_distance c1 c2 ^ 2 =
        (c2.1 - c1.1) ^ 2 + (c2.2.1 - c1.2.1) ^ 2 + (c2.2.2 - c1.2.2) ^ 2)
    ∧ calculate_distance (0, 0, 0) (3, 4, 0) = 5 := by
  refine ⟨fun c1 c2 => Real.sqrt_nonneg _,
    fun c1 c2 => Real.sq_sqrt (by positivity), ?_⟩
  unfold calculate_distance
  rw [show ((3 : ℝ) - 0) ^ 2 + ((4 : ℝ) - 0) ^ 2 + ((0 : ℝ) - 0) ^ 2 = 5 ^ 2 by norm_num,
    Real.sqrt_sq (by norm_num)]

/-! ## C10 -/

theorem hetatm_not_atom {line : List Char} (h : pyStartsWith HETATMkw line = true) :
    pyStartsWith ATOMkw line = false := by
  cases line with
  | nil => simp [pyStartsWith, HETATMkw, List.isPrefixOf] at h
  | cons c t =>
    have hc : c = 'H' := by
      simp only [pyStartsWith, HETATMkw, List.isPrefixOf, Bool.and_eq_true, beq_iff_eq] at h
      exact h.1.symm
    subst hc
    rfl

/-- C10: in the secondary-structure pipeline only `ATOM`-prefixed lines can
contribute an alpha-carbon coordinate: a `HETATM` line never changes the
coordinate map, even when its atom-name field is `CA` (witnessed on
`hetLine0`, whose atom name is `CA`), while the loop pipeline's atom parser
does accept the very same `HETATM` line and records its atom. -/
theorem hetatm_spec :
    (∀ (line : List Char) (acc : List (ResKey × (ℚ × ℚ × ℚ))),
      pyStartsWith HETATMkw line = true → caLineUpdate line acc = acc)
    ∧ pyStrip (pySlice hetLine0 12 16) = ['C', 'A']
    ∧ caLineUpdate hetLine0 [] = []
    ∧ atomLineUpdate hetLine0 [] = [((['A'], 1), [(['H', 'O', 'H'], 10)])] := by
  have hgen : ∀ (line : List Char) (acc : List (ResKey × (ℚ × ℚ × ℚ))),
      pyStartsWith HETATMkw line = true → caLineUpdate line acc = acc := by
    intro line acc h
    simp [caLineUpdate, hetatm_not_atom h]
  exact ⟨hgen, by decide, hgen hetLine0 [] (by decide), by decide⟩

/-! ## C8 -/

/-- C8: a line of either loop-pipeline parser on which field extraction
raises (`IndexError`: a required offset past the end of the line, or
`ValueError`: non-numeric content in a numeric field — the cases in which
`helixExtract` / `sheetExtract` / `atomExtract` return `none`) is skipped
exactly: the accumulated state is unchanged (no partial record or partial
region entry), and parsing the remaining lines proceeds as if the bad line
were absent; no exception escapes the parse stage. -/
theorem parse_skip_spec (badSS badAtom : List Char)
    (h1 : (pyStartsWith HELIXkw badSS = true ∧ helixExtract badSS = none) ∨
          (pyStartsWith SHEETkw badSS = true ∧ sheetExtract badSS = none))
    (h2 : (pyStartsWith ATOMkw badAtom = true ∨ pyStartsWith HETATMkw badAtom = true) ∧
          atomExtract badAtom = none) :
    (∀ acc : Finset ResKey, ssLineUpdate badSS acc = acc)
    ∧ (∀ pre post : List (List Char),
        parse_pdb_secondary_structure (pre ++ badSS :: post) =
          parse_pdb_secondary_structure (pre ++ post))
    ∧ (∀ acc : AtomMap, atomLineUpdate badAtom acc = acc)
    ∧ (∀ pre post : List (List Char),
        parse_pdb_atoms (pre ++ badAtom :: post) = parse_pdb_atoms (pre ++ post)) := by
  have hss : ∀ acc : Finset ResKey, ssLineUpdate badSS acc = acc := by
    intro acc
    rcases h1 with ⟨ha, hb⟩ | ⟨ha, hb⟩
    · simp [ssLineUpdate, ha, hb]
    · simp [ssLineUpdate, sheet_not_helix ha, ha, hb]
  have hat : ∀ acc : AtomMap, atomLineUpdate badAtom acc = acc := by
    intro acc
    rcases h2 with ⟨ha, hb⟩
    rcases ha with ha | ha <;> simp [atomLineUpdate, ha, hb]
  refine ⟨hss, ?_, hat, ?_⟩
  · intro pre post
    unfold parse_pdb_secondary_structure
    rw [List.foldl_append, List.foldl_append, List.foldl_cons, hss]
  · intro pre post
    unfold parse_pdb_atoms
    rw [List.foldl_append, List.foldl_append, List.foldl_cons, hat]

/-- Witness for C8: the five-character line `HELIX` (chain extraction at
column 19 raises `IndexError`) and the four-character line `ATOM` (chain
extraction at column 21 raises `IndexError`) are both skipped exactly. -/
theorem parse_skip_witness :
    (∀ acc : Finset ResKey, ssLineUpdate HELIXkw acc = acc)
    ∧ (∀ pre post : List (List Char),
        parse_pdb_secondary_structure (pre ++ HELIXkw :: post) =
          parse_pdb_secondary_structure (pre ++ post))
    ∧ (∀ acc : AtomMap, atomLineUpdate ATOMkw acc = acc)
    ∧ (∀ pre post : List (List Char),
        parse_pdb_atoms (pre ++ ATOMkw :: post) = parse_pdb_atoms (pre ++ post)) :=
  parse_skip_spec HELIXkw ATOMkw (Or.inl ⟨by decide, by decide⟩)
    ⟨Or.inl (by decide), by decide⟩

/-! ## C5 -/

/-- C5: `normalize_sequence_id` tries, in strict order, (1) exact match,
(2) match of the identifier with its dot-delimited version suffix stripped
(the part before the first dot), (3) substring containment in either
direction against the table identifiers with the first match in table
insertion order winning, (4) case-insensitive exact match, and returns
`none` when all four fail; and `NP_123456.1` resolves to the table entry
`NP_123456` via version-stripping. -/
theorem normalize_id_spec (seq_id : List Char) (table : List (List Char)) :
    (seq_id ∈ table → normalize_sequence_id seq_id table = some seq_id)
    ∧ (seq_id ∉ table → '.' ∈ seq_id → seq_id.takeWhile (fun c => c ≠ '.') ∈ table →
        normalize_sequence_id seq_id table = some (seq_id.takeWhile (fun c => c ≠ '.')))
    ∧ (seq_id ∉ table → ¬('.' ∈ seq_id ∧ seq_id.takeWhile (fun c => c ≠ '.') ∈ table) →
        ∀ t, table.find? (fun tid => pySubstr tid seq_id || pySubstr seq_id tid) = some t →
          normalize_sequence_id seq_id table = some t)
    ∧ (seq_id ∉ table → ¬('.' ∈ seq_id ∧ seq_id.takeWhile (fun c => c ≠ '.') ∈ table) →
        table.find? (fun tid => pySubstr tid seq_id || pySubstr seq_id tid) = none →
        ∀ t, table.find? (fun tid => decide (pyLower tid = pyLower seq_id)) = some t →
          normalize_sequence_id seq_id table = some t)
    ∧ (seq_id ∉ table → ¬('.' ∈ seq_id ∧ seq_id.takeWhile (fun c => c ≠ '.') ∈ table) →
        table.find? (fun tid => pySubstr tid seq_id || pySubstr seq_id tid) = none →
        table.find? (fun tid => decide (pyLower tid = pyLower seq_id)) = none →
          normalize_sequence_id seq_id table = none)
    ∧ normalize_sequence_id "NP_123456.1".toList ["NP_123456".toList] =
        some "NP_123456".toList := by
  refine ⟨?_, ?_, ?_, ?_, ?_, by decide⟩
  · intro h
    unfold normalize_sequence_id
    rw [if_pos h]
  · intro h hdot hbase
    unfold normalize_sequence_id
    rw [if_neg h, if_pos ⟨hdot, hbase⟩]
  · intro h hnot t hfind
    unfold normalize_sequence_id
    rw [if_neg h, if_neg hnot, hfind]
  · intro h hnot hfind3 t hfind4
    unfold normalize_sequence_id
    rw [if_neg h, if_neg hnot, hfind3]
    exact hfind4
  · intro h hnot hfind3 hfind4
    unfold normalize_sequence_id
    rw [if_neg h, if_neg hnot, hfind3]
    exact hfind4

/-! ## C6 and C7: table-column resolution -/

/-- The overwriting scan loop keeps the last matching field. -/
theorem scan_foldl (p : List Char → Bool) :
    ∀ (fields : List (List Char)) (acc : Option (List Char)),
      fields.foldl (fun a f => if p f then some f else a) acc =
        ((fields.filter p).getLast?).or acc := by
  intro fields
  induction fields with
  | nil => intro acc; simp
  | cons f fs ih =>
    intro acc
    by_cases hf : p f
    · rw [List.foldl_cons, if_pos hf, ih (some f), List.filter_cons_of_pos hf]
      cases hfp : fs.filter p with
      | nil => simp
      | cons a as =>
        rw [List.getLast?_cons_cons]
        have hne : (a :: as) ≠ [] := by simp
        obtain ⟨x, hx⟩ := Option.isSome_iff_exists.mp (List.getLast?_isSome.mpr hne)
        rw [hx]
        rfl
    · rw [List.foldl_cons, if_neg hf, ih acc, List.filter_cons_of_neg hf]

theorem groupColScan_eq (fields : List (List Char)) :
    groupColScan fields = (fields.filter grpPredB).getLast? := by
  rw [groupColScan, scan_foldl, Option.or_none]

theorem idColScan_eq (fields : List (List Char)) :
    idColScan fields = (fields.filter idPredB).getLast? := by
  rw [idColScan, scan_foldl, Option.or_none]

/-- C6 counterexample: on the header `[taxon, genus]` the parser's fallback
selects `taxon` — the first field containing any fallback keyword — while
the claimed keyword-priority order (`genus` before `taxon`) would select
`genus`. -/
theorem group_col_cex :
    resolve_table_columns [['t', 'a', 'x', 'o', 'n'], ['g', 'e', 'n', 'u', 's']] =
      Except.ok (['t', 'a', 'x', 'o', 'n'], ['t', 'a', 'x', 'o', 'n'])
    ∧ groupColFallbackPriority [['t', 'a', 'x', 'o', 'n'], ['g', 'e', 'n', 'u', 's']] =
      some ['g', 'e', 'n', 'u', 's']
    ∧ (['t', 'a', 'x', 'o', 'n'] : List Char) ≠ ['g', 'e', 'n', 'u', 's'] :=
  ⟨by decide, by decide, by decide⟩

/-- C6 (amended): the parser scans the header case-insensitively for the
substring `group`, keeping the last match; when no field contains it, it
falls back to the *first field* (in header order) containing any of the
substrings `genus`, `species`, `taxon`, `class` — not to the keywords in
priority order — and when still no field matches it fails fast with a fatal
configuration error (`Except.error`), producing no partial result. -/
theorem group_col_amended_spec (fields : List (List Char)) :
    (resolve_table_columns fields = Except.error () ↔
      ((fields.filter grpPredB).getLast? = none ∧ fields.find? fbPredB = none))
    ∧ groupColScan fields = (fields.filter grpPredB).getLast?
    ∧ (∀ g, (fields.filter grpPredB).getLast? = some g →
        ∃ i, resolve_table_columns fields = Except.ok (g, i))
    ∧ ((fields.filter grpPredB).getLast? = none →
        ∀ g, fields.find? fbPredB = some g →
          ∃ i, resolve_table_columns fields = Except.ok (g, i)) := by
  refine ⟨?_, groupColScan_eq fields, ?_, ?_⟩
  · unfold resolve_table_columns
    rw [groupColScan_eq]
    cases hg : (fields.filter grpPredB).getLast? with
    | some g => simp
    | none =>
      unfold groupColFallback
      cases hf : fields.find? fbPredB with
      | some g => simp
      | none => simp
  · intro g hg
    unfold resolve_table_columns
    rw [groupColScan_eq, hg]
    exact ⟨(idColScan fields).getD fields.headI, rfl⟩
  · intro hg g hf
    unfold resolve_table_columns
    rw [groupColScan_eq, hg]
    unfold groupColFallback
    rw [hf]
    exact ⟨(idColScan fields).getD fields.headI, rfl⟩

/-- C7 counterexample: on the header `[id, name, group]` the parser selects
`name` — the last field containing an identifier keyword — while the claimed
first-match rule would select `id`. -/
theorem id_col_cex :
    resolve_table_columns [['i', 'd'], ['n', 'a', 'm', 'e'], ['g', 'r', 'o', 'u', 'p']] =
      Except.ok (['g', 'r', 'o', 'u', 'p'], ['n', 'a', 'm', 'e'])
    ∧ idColFirstMatch [['i', 'd'], ['n', 'a', 'm', 'e'], ['g', 'r', 'o', 'u', 'p']] =
      some ['i', 'd']
    ∧ (['n', 'a', 'm', 'e'] : List Char) ≠ ['i', 'd'] :=
  ⟨by decide, by decide, by decide⟩

/-- C7 (amended): identifier-column resolution selects the *last* header
field whose lowercased name contains any of `id`, `name`, `sequence`,
`entry`, `accession` (the scanning loop overwrites on every match); when no
header field matches, it defaults to the first column. -/
theorem id_col_amended_spec (fields : List (List Char)) :
    idColScan fields = (fields.filter idPredB).getLast?
    ∧ (∀ g i, resolve_table_columns fields = Except.ok (g, i) →
        i = ((fields.filter idPredB).getLast?).getD fields.headI) := by
  refine ⟨idColScan_eq fields, ?_⟩
  intro g i h
  unfold resolve_table_columns at h
  rw [← idColScan_eq]
  cases hg : groupColScan fields with
  | some g' =>
    rw [hg] at h
    exact (Prod.ext_iff.mp (Except.ok.inj h)).2.symm
  | none =>
    rw [hg] at h
    cases hf : groupColFallback fields with
    | some g' =>
      rw [hf] at h
      exact (Prod.ext_iff.mp (Except.ok.inj h)).2.symm
    | none =>
      rw [hf] at h
      exact absurd h (fun hh => Except.noConfusion hh)

/-! ## C4: the position-wise amino-acid counter -/

theorem chainLeB_trans {a b c : List Char} (h1 : chainLtB a b = true ∨ a = b)
    (h2 : chainLtB b c = true ∨ b = c) : chainLtB a c = true ∨ a = c := by
  rcases h1 with h1 | rfl
  · rcases h2 with h2 | rfl
    · exact Or.inl (chainLtB_trans a b c h1 h2)
    · exact Or.inl h1
  · exact h2

instance : IsTotal (List Char × Nat) usageLe :=
  ⟨fun a b => by
    rcases lt_trichotomy b.2 a.2 with h | h | h
    · exact Or.inl (Or.inl h)
    · rcases chainLtB_tricho a.1 b.1 with h2 | h2 | h2
      · exact Or.inl (Or.inr ⟨h.symm, Or.inl h2⟩)
      · exact Or.inl (Or.inr ⟨h.symm, Or.inr h2⟩)
      · exact Or.inr (Or.inr ⟨h, Or.inl h2⟩)
    · exact Or.inr (Or.inl h)⟩

instance : IsTrans (List Char × Nat) usageLe :=
  ⟨fun a b c h1 h2 => by
    rcases h1 with h1 | ⟨he1, hc1⟩
    · rcases h2 with h2 | ⟨he2, hc2⟩
      · exact Or.inl (lt_trans h2 h1)
      · exact Or.inl (lt_of_eq_of_lt he2.symm h1)
    · rcases h2 with h2 | ⟨he2, hc2⟩
      · exact Or.inl (lt_of_lt_of_eq h2 he1.symm)
      · exact Or.inr ⟨he1.trans he2, chainLeB_trans hc1 hc2⟩⟩

theorem colSymbols_cons_none {s : List Char} {pos : Nat} (ss : List (List Char))
    (hs : s[pos]? = none) : colSymbols (s :: ss) pos = colSymbols ss pos := by
  simp [colSymbols, List.filterMap_cons, hs]

theorem colSymbols_cons_some {s : List Char} {pos : Nat} {c : Char} (ss : List (List Char))
    (hs : s[pos]? = some c) : colSymbols (s :: ss) pos = normSym c :: colSymbols ss pos := by
  simp [colSymbols, List.filterMap_cons, hs]

theorem hasSymAtB_none {s : List Char} {pos : Nat} (sym : List Char) (hs : s[pos]? = none) :
    hasSymAtB pos sym s = false := by
  simp [hasSymAtB, hs]

theorem hasSymAtB_some {s : List Char} {pos : Nat} {c : Char} (sym : List Char)
    (hs : s[pos]? = some c) : hasSymAtB pos sym s = decide (normSym c = sym) := by
  simp [hasSymAtB, hs]

/-- The denominator: the collected column has one entry per sequence that
covers the position. -/
theorem length_colSymbols (seqs : List (List Char)) (pos : Nat) :
    (colSymbols seqs pos).length = seqs.countP (fun s => decide (pos < s.length)) := by
  induction seqs with
  | nil => rfl
  | cons s ss ih =>
    cases hs : s[pos]? with
    | none =>
      have hlen : ¬ pos < s.length := by
        intro hh
        rw [List.getElem?_eq_getElem hh] at hs
        exact Option.noConfusion hs
      rw [colSymbols_cons_none ss hs, List.countP_cons, ih]
      simp [hlen]
    | some c =>
      have hlen : pos < s.length := by
        by_contra hh
        rw [List.getElem?_eq_none (le_of_not_lt hh)] at hs
        exact Option.noConfusion hs
      rw [colSymbols_cons_some ss hs, List.length_cons, List.countP_cons, ih]
      simp [hlen]

/-- A symbol's tally over the collected column counts exactly the sequences
that contribute that symbol at the position. -/
theorem count_colSymbols (seqs : List (List Char)) (pos : Nat) (sym : List Char) :
    (colSymbols seqs pos).count sym = seqs.countP (hasSymAtB pos sym) := by
  induction seqs with
  | nil => rfl
  | cons s ss ih =>
    cases hs : s[pos]? with
    | none =>
      rw [colSymbols_cons_none ss hs, List.countP_cons, ih, hasSymAtB_none sym hs]
      simp
    | some c =>
      rw [colSymbols_cons_some ss hs, List.count_cons, List.countP_cons, ih,
        hasSymAtB_some sym hs]
      simp [beq_iff_eq]

/-- C4: for every alignment column and every group, the counter tallies the
uppercase-normalised character (`-` and `.` becoming `gap`) of each sequence
long enough to cover the column: the denominator counts exactly the
sequences that have a character at the position (shorter sequences are
excluded, not counted as gaps); a row `(sym, cnt, pct)` is reported exactly
when a nonzero number `cnt` of sequences contributes `sym` there, with
`pct = cnt / total * 100`; rows are ordered by descending count with ties
broken by ascending symbol; and four sequences `A, A, -, A` yield `A : 3`
(75%) then `gap : 1` (25%) over a denominator of 4. -/
theorem aa_usage_spec (seqs : List (List Char)) (pos : Nat) :
    (colSymbols seqs pos).length = seqs.countP (fun s => decide (pos < s.length))
    ∧ (∀ (sym : List Char) (cnt : Nat) (pct : ℚ), (sym, cnt, pct) ∈ usageRows seqs pos ↔
        (cnt = seqs.countP (hasSymAtB pos sym) ∧ cnt ≠ 0 ∧
          pct = (cnt : ℚ) / ((colSymbols seqs pos).length : ℚ) * 100))
    ∧ List.Pairwise
        (fun a b : List Char × Nat × ℚ =>
          b.2.1 < a.2.1 ∨ (a.2.1 = b.2.1 ∧ chainLtB a.1 b.1 = true))
        (usageRows seqs pos)
    ∧ usageRows [['A'], ['A'], ['-'], ['A']] 0 =
        [(['A'], 3, 75), (['g', 'a', 'p'], 1, 25)] := by
  have hperm := List.perm_insertionSort usageLe (usageItems seqs pos)
  refine ⟨length_colSymbols seqs pos, ?_, ?_, ?_⟩
  · intro sym cnt pct
    constructor
    · intro hmem
      simp only [usageRows, List.mem_map] at hmem
      obtain ⟨it, hit, heq⟩ := hmem
      have hit2 : it ∈ usageItems seqs pos := hperm.mem_iff.mp hit
      simp only [usageItems, List.mem_map] at hit2
      obtain ⟨s, hsd, rfl⟩ := hit2
      simp only [Prod.mk.injEq] at heq
      obtain ⟨rfl, rfl, rfl⟩ := heq
      refine ⟨count_colSymbols seqs pos s, ?_, rfl⟩
      have hsym : s ∈ colSymbols seqs pos := List.mem_dedup.mp hsd
      exact Nat.pos_iff_ne_zero.mp (List.count_pos_iff.mpr hsym)
    · rintro ⟨hcnt, hne, hpct⟩
      have hcount : (colSymbols seqs pos).count sym = cnt := by
        rw [count_colSymbols]
        exact hcnt.symm
      have hsym : sym ∈ colSymbols seqs pos :=
        List.count_pos_iff.mp (by rw [hcount]; exact Nat.pos_of_ne_zero hne)
      simp only [usageRows, List.mem_map]
      refine ⟨(sym, (colSymbols seqs pos).count sym), ?_, ?_⟩
      · rw [hperm.mem_iff]
        simp only [usageItems, List.mem_map]
        exact ⟨sym, List.mem_dedup.mpr hsym, rfl⟩
      · rw [hcount, hpct]
  · have hsorted : List.Pairwise usageLe (List.insertionSort usageLe (usageItems seqs pos)) :=
      List.sorted_insertionSort usageLe (usageItems seqs pos)
    have hfst : List.Pairwise (fun a b : List Char × Nat => a.1 ≠ b.1) (usageItems seqs pos) := by
      simp only [usageItems]
      rw [List.pairwise_map]
      exact (List.nodup_dedup (colSymbols seqs pos)).imp (fun h => h)
    have hfstSorted : List.Pairwise (fun a b : List Char × Nat => a.1 ≠ b.1)
        (List.insertionSort usageLe (usageItems seqs pos)) :=
      (List.Perm.pairwise_iff (fun h => Ne.symm h) hperm).mpr hfst
    simp only [usageRows]
    rw [List.pairwise_map]
    exact (hsorted.and hfstSorted).imp (fun {a b} h => by
      rcases h with ⟨hle, hne⟩
      rcases hle with h1 | ⟨he, hc⟩
      · exact Or.inl h1
      · rcases hc with hc | hc
        · exact Or.inr ⟨he, hc⟩
        · exact absurd hc hne)
  · have hitems : List.insertionSort usageLe (usageItems [['A'], ['A'], ['-'], ['A']] 0) =
        [(['A'], 3), (['g', 'a', 'p'], 1)] := by decide
    simp only [usageRows, hitems, List.map_cons, List.map_nil]
    rw [show (colSymbols [['A'], ['A'], ['-'], ['A']] 0).length = 4 from by decide]
    norm_num
